import Mathlib

/-!
Verification of the csim set-associative cache simulator.

The definitions below are a shallow embedding of `src/cache.rs` (and the
`MemoryAccess` record of `src/valgrind.rs`).  Machine integers are modelled
as `Nat` with explicit `% 2 ^ w` wherever Rust wrapping matters; fallible
operations (index-out-of-bounds panics, arithmetic-overflow panics, shift
amounts of 64 or more on a `u64`) return `Option`, with `none` standing for
a panic of the Rust program under the default (overflow-checking) build.

The Rust code reads the wall clock through `Instant::now()`.  We model the
clock environment by a valuation `tau : Nat → Nat`: the cache state carries
a counter `clock` of how many `Instant::now()` calls have happened so far,
and the value returned by the next call is `tau clock`.  `tau = id` is the
canonical logical clock (call number `n` returns instant `n`); a run of the
real program with a strictly monotone wall clock is the run with a strictly
monotone `tau`, and a wall clock whose resolution makes two calls return
the same instant is a merely monotone `tau`.
-/

namespace Csim

/-- Operation kinds of `valgrind.rs` (`enum Operation`). -/
inductive Operation where
  | Load
  | Store
  | Modify
  | Instruction
deriving DecidableEq, Repr

/-- `struct MemoryAccess` of `valgrind.rs`: `address` is a `u64`, `size` a `u8`. -/
structure MemoryAccess where
  operation : Operation
  address : Nat
  size : Nat
deriving DecidableEq, Repr

/-- `struct Line` of `cache.rs`: `valid: bool`, `tag: u64`, an inert block of
`u8` bytes, and `access_time: Instant` modelled as the index of the
`Instant::now()` call that produced it. -/
structure Line where
  valid : Bool
  tag : Nat
  block : List Nat
  access_time : Nat
deriving DecidableEq, Repr

/-- `struct Set` of `cache.rs` (named `CacheSet` here to avoid clashing with
`Set` from the library). -/
structure CacheSet where
  lines : List Line
deriving DecidableEq, Repr

/-- `struct Statistics` of `cache.rs` (`hit`, `miss`, `eviction` counters). -/
structure Statistics where
  hit : Nat
  miss : Nat
  eviction : Nat
deriving DecidableEq, Repr

/-- `struct AddressPartition` of `cache.rs`. -/
structure AddressPartition where
  tag : Nat
  set : Nat
  block : Nat
deriving DecidableEq, Repr

/-- `struct Cache` of `cache.rs`, plus the `clock` counter modelling how many
`Instant::now()` calls have occurred (not a field of the Rust struct: it is
the state of the ambient clock the Rust code reads). -/
structure Cache where
  stats : Statistics
  sets : List CacheSet
  set_bits : Nat
  block_bits : Nat
  tag_bits : Nat
  num_lines : Nat
  clock : Nat
deriving DecidableEq, Repr

/-- The cold lines of one set built by `Cache::new`: line `j` gets the instant
returned by `Instant::now()` call number `start + j`. -/
def mk_lines (tau : Nat → Nat) (start n total_bytes : Nat) : List Line :=
  (List.range n).map fun j =>
    { valid := false
      tag := 0
      block := List.replicate total_bytes 0
      access_time := tau (start + j) }

/-- `Cache::new` of `cache.rs`.  `total_sets = 2_u8.pow(set_bits)` and
`total_bytes = 2_u8.pow(block_bits)` are computed in `u8`, so any power
above 255 is an overflow panic (`none`); `tag_bits = 64_u8 - (set_bits +
block_bits)` panics when the `u8` addition overflows or the subtraction
underflows.  No other validation is performed: the Rust function has no
error return value.  On success the cache holds `2 ^ set_bits` sets of
`num_lines` cold lines, and `2 ^ set_bits * num_lines` clock calls have
been made. -/
def Cache.new (tau : Nat → Nat) (set_bits num_lines block_bits : Nat) : Option Cache :=
  if 255 < 2 ^ set_bits then none
  else if 255 < 2 ^ block_bits then none
  else if 255 < set_bits + block_bits then none
  else if 64 < set_bits + block_bits then none
  else
    some
      { sets := (List.range (2 ^ set_bits)).map fun s =>
          ⟨mk_lines tau (s * num_lines) num_lines (2 ^ block_bits)⟩
        set_bits := set_bits
        block_bits := block_bits
        tag_bits := 64 - (set_bits + block_bits)
        num_lines := num_lines
        stats := { hit := 0, miss := 0, eviction := 0 }
        clock := 2 ^ set_bits * num_lines }

/-- `Cache::place_block` of `cache.rs`.  `tag_bits = 64 - (set_bits +
block_bits)` underflows (panics) when `set_bits + block_bits > 64`.  A `u64`
shift by 64 or more panics; the shift amounts are `set_bits + block_bits`
(64 exactly when `set_bits + block_bits = 64`), `tag_bits` and
`tag_bits + block_bits = 64 - set_bits` (64 when `set_bits = 0`), and
`tag_bits + set_bits = 64 - block_bits` (64 when `block_bits = 0`).  In the
remaining cases the left shifts wrap modulo `2 ^ 64` and the right shifts
are division, exactly as on `u64`. -/
def place_block (address set_bits block_bits : Nat) : Option AddressPartition :=
  if 64 < set_bits + block_bits then none
  else if set_bits + block_bits = 64 then none
  else if set_bits = 0 then none
  else if block_bits = 0 then none
  else
    some
      { tag := address / 2 ^ (set_bits + block_bits)
        set := address * 2 ^ (64 - (set_bits + block_bits)) % 2 ^ 64 /
          2 ^ (64 - (set_bits + block_bits) + block_bits)
        block := address * 2 ^ (64 - (set_bits + block_bits) + set_bits) % 2 ^ 64 /
          2 ^ (64 - (set_bits + block_bits) + set_bits) }

/-- `Cache::decompose` of `cache.rs`. -/
def Cache.decompose (c : Cache) (address : Nat) : Option AddressPartition :=
  place_block address c.set_bits c.block_bits

/-- `Cache::attempt_cache_hit` of `cache.rs`.  The Rust `for` loop returns
from its first iteration on both branches, so only the head line of the set
is ever examined: a matching head is a hit (refresh its timestamp with a
fresh `Instant::now()`), any other head is immediately counted as a miss.
An empty set falls through to `false` with no counter change.  `none` is
the out-of-bounds panic on `self.sets[parts.set]`. -/
def Cache.attempt_cache_hit (tau : Nat → Nat) (c : Cache) (parts : AddressPartition) :
    Option (Cache × Bool) :=
  match c.sets.get? parts.set with
  | none => none
  | some s =>
    match s.lines with
    | [] => some (c, false)
    | l :: rest =>
      if l.valid = true ∧ l.tag = parts.tag then
        some ({ c with
            stats := { c.stats with hit := c.stats.hit + 1 }
            sets := c.sets.set parts.set ⟨{ l with access_time := tau c.clock } :: rest⟩
            clock := c.clock + 1 }, true)
      else
        some ({ c with stats := { c.stats with miss := c.stats.miss + 1 } }, false)

/-- The loop body of `Cache::attempt_cache_store`: mark the first invalid
line valid and give it the tag.  The timestamp is left untouched, exactly
as in the Rust code.  `none` means no invalid line was found. -/
def store_lines (tag : Nat) : List Line → Option (List Line)
  | [] => none
  | l :: ls =>
    if l.valid = false then some ({ l with valid := true, tag := tag } :: ls)
    else (store_lines tag ls).map (l :: ·)

/-- `Cache::attempt_cache_store` of `cache.rs`.  `none` is the out-of-bounds
panic on `self.sets[parts.set]`. -/
def Cache.attempt_cache_store (c : Cache) (parts : AddressPartition) :
    Option (Cache × Bool) :=
  match c.sets.get? parts.set with
  | none => none
  | some s =>
    match store_lines parts.tag s.lines with
    | none => some (c, false)
    | some ls => some ({ c with sets := c.sets.set parts.set ⟨ls⟩ }, true)

/-- The scan loop of `Cache::evict_cache_block`: starting from
`(best_time, best_id)` (initially line 0's timestamp and index 0), replace
the candidate whenever a strictly smaller timestamp is seen, so the first
line attaining the minimum wins. -/
def lru_fold : List Line → Nat → Nat → Nat → Nat × Nat
  | [], _, best_time, best_id => (best_time, best_id)
  | l :: ls, pos, best_time, best_id =>
    if l.access_time < best_time then lru_fold ls (pos + 1) l.access_time pos
    else lru_fold ls (pos + 1) best_time best_id

/-- The three assignments of `Cache::evict_cache_block` on the chosen line:
mark valid, overwrite the tag, stamp with a fresh `Instant::now()`. -/
def modify_line (lines : List Line) (i : Nat) (tag time : Nat) : List Line :=
  match lines, i with
  | [], _ => []
  | l :: ls, 0 => { l with valid := true, tag := tag, access_time := time } :: ls
  | l :: ls, i + 1 => l :: modify_line ls i tag time

/-- `Cache::evict_cache_block` of `cache.rs`.  `none` is the panic of
`lines[0]` on an empty set (or of the set lookup itself). -/
def Cache.evict_cache_block (tau : Nat → Nat) (c : Cache) (parts : AddressPartition) :
    Option Cache :=
  match c.sets.get? parts.set with
  | none => none
  | some s =>
    match s.lines with
    | [] => none
    | l0 :: rest =>
      some { c with
        sets := c.sets.set parts.set
          ⟨modify_line (l0 :: rest) (lru_fold rest 1 l0.access_time 0).2 parts.tag (tau c.clock)⟩
        stats := { c.stats with eviction := c.stats.eviction + 1 }
        clock := c.clock + 1 }

/-- The body of the `for trace in traces` loop of `Cache::operate_cache`:
decompose, then hit check, then store-into-empty, then evict. -/
def Cache.operate_step (tau : Nat → Nat) (c : Cache) (t : MemoryAccess) : Option Cache :=
  match c.decompose t.address with
  | none => none
  | some parts =>
    match c.attempt_cache_hit tau parts with
    | none => none
    | some (c1, true) => some c1
    | some (c1, false) =>
      match c1.attempt_cache_store parts with
      | none => none
      | some (c2, true) => some c2
      | some (c2, false) => c2.evict_cache_block tau parts

/-- `Cache::operate_cache` of `cache.rs`: process the access stream in
order. -/
def Cache.operate_cache (tau : Nat → Nat) (c : Cache) : List MemoryAccess → Option Cache
  | [] => some c
  | t :: ts =>
    match c.operate_step tau t with
    | none => none
    | some c' => c'.operate_cache tau ts

/-- A merely monotone clock valuation: calls 1 through 4 all return the same
instant, as a coarse-resolution wall clock can.  Values: 0, 1, 1, 1, 1, 5, 6, … -/
def tau_tie : Nat → Nat := fun n => if n = 0 then 0 else if n ≤ 4 then 1 else n

/-- Reinterpret a line's stored instant through a clock valuation: used to
relate a run under an arbitrary clock to the canonical logical-clock run. -/
def map_time_line (tau : Nat → Nat) (l : Line) : Line :=
  { l with access_time := tau l.access_time }

/-- `map_time_line` applied to every line of a set. -/
def map_time_set (tau : Nat → Nat) (s : CacheSet) : CacheSet :=
  ⟨s.lines.map (map_time_line tau)⟩

/-- `map_time_line` applied to every line of a cache. -/
def map_time (tau : Nat → Nat) (c : Cache) : Cache :=
  { c with sets := c.sets.map (map_time_set tau) }

/-- The cache built by `Cache::new` with `S = 1, E = 1, B = 1` under the
logical clock. -/
def demo_new_cache : Cache :=
  { stats := ⟨0, 0, 0⟩
    sets := [⟨[⟨false, 0, [0, 0], 0⟩]⟩, ⟨[⟨false, 0, [0, 0], 1⟩]⟩]
    set_bits := 1
    block_bits := 1
    tag_bits := 62
    num_lines := 1
    clock := 2 }

/-- `demo_new_cache` after processing a single load of address 0: one miss,
line 0 of set 0 filled. -/
def demo_run_cache : Cache :=
  { stats := ⟨0, 1, 0⟩
    sets := [⟨[⟨true, 0, [0, 0], 0⟩]⟩, ⟨[⟨false, 0, [0, 0], 1⟩]⟩]
    set_bits := 1
    block_bits := 1
    tag_bits := 62
    num_lines := 1
    clock := 2 }

/-- A full two-line set for the C8 witness: timestamps 3 and 1, so the LRU
victim is line 1. -/
def demo_evict_set : CacheSet := ⟨[⟨true, 5, [], 3⟩, ⟨true, 7, [], 1⟩]⟩

/-- A one-set cache wrapping `demo_evict_set`. -/
def demo_evict_cache : Cache :=
  { stats := ⟨0, 0, 0⟩
    sets := [demo_evict_set]
    set_bits := 0
    block_bits := 0
    tag_bits := 64
    num_lines := 2
    clock := 10 }

lemma tau_tie_monotone : Monotone tau_tie := by
  intro m n h
  simp only [tau_tie]
  split_ifs <;> omega

/-- Sanity check against the repository's own unit test
`address_decomposition` in `cache.rs`: decomposing `0xFFFF_FFFF_FF_DEF_ABC`
with 12 set bits and 12 block bits yields tag `0xFFFFFFFFFF`, set `0xDEF`,
block `0xABC`. -/
lemma place_block_matches_repo_test :
    place_block 0xFFFFFFFFFFDEFABC 12 12 = some ⟨0xFFFFFFFFFF, 0xDEF, 0xABC⟩ := by
  decide

/-- Claim C1: the hit check is claimed to scan every line of the target set
and to hit iff some valid line's tag matches.  The code examines only the
first line.  Concretely, with geometry `S = 1, E = 2, B = 1` and accesses
`0x0, 0x4`, line 1 of set 0 ends up valid with tag 1; a further access to
`0x4` (tag 1) should therefore be a hit, yet the full three-access run
records zero hits (and an eviction), because `attempt_cache_hit` returns a
miss from the first loop iteration without ever looking at line 1. -/
theorem hit_check_scans_only_first_line :
    (((Cache.new id 1 2 1).bind fun c =>
        c.operate_cache id [⟨.Load, 0x0, 1⟩, ⟨.Load, 0x4, 1⟩]).map fun c =>
      (c.sets.get? 0).map fun s => s.lines.map fun l => (l.valid, l.tag)) =
      some (some [(true, 0), (true, 1)]) ∧
    (((Cache.new id 1 2 1).bind fun c =>
        c.operate_cache id [⟨.Load, 0x0, 1⟩, ⟨.Load, 0x4, 1⟩, ⟨.Load, 0x4, 1⟩]).map fun c =>
      c.stats.hit) = some 0 := by
  decide

/-- Claim C3: the engine is claimed never to create two valid lines with the
same tag within one set.  With geometry `S = 1, E = 2, B = 1` and accesses
`0x0, 0x4, 0x4`, the third access misses (only line 0 is examined), finds no
empty line, and evicts line 0, leaving both lines of set 0 valid with
tag 1. -/
theorem duplicate_tag_lines_created :
    (((Cache.new id 1 2 1).bind fun c =>
        c.operate_cache id [⟨.Load, 0x0, 1⟩, ⟨.Load, 0x4, 1⟩, ⟨.Load, 0x4, 1⟩]).map fun c =>
      (c.sets.get? 0).map fun s => s.lines.map fun l => (l.valid, l.tag)) =
      some (some [(true, 1), (true, 1)]) := by
  decide

/-- Claim C4: evictions are claimed to stay at zero until some set has
received its `(E + 1)`-th distinct tag.  With geometry `S = 1, E = 2, B = 1`
the accesses `0x0, 0x4, 0x4` deliver only the two distinct tags 0 and 1 to
set 0, yet the run performs an eviction, because the single-line hit check
turns the repeat access to tag 1 into a miss on a full set. -/
theorem eviction_before_extra_distinct_tag :
    (([0x0, 0x4, 0x4].map fun a => (place_block a 1 1).map AddressPartition.tag) =
      [some 0, some 1, some 1]) ∧
    (((Cache.new id 1 2 1).bind fun c =>
        c.operate_cache id [⟨.Load, 0x0, 1⟩, ⟨.Load, 0x4, 1⟩, ⟨.Load, 0x4, 1⟩]).map fun c =>
      c.stats.eviction) = some 1 := by
  decide

/-- Claim C5: construction with `S + B > 64` or `E = 0` is claimed to fail
with a `ConfigurationError`.  The Rust `Cache::new` returns `Cache`, not a
`Result`: no configuration error exists.  With `S = 40, B = 30` it panics
from `u8` overflow (modelled as `none`), and the supposedly illegal `E = 0`
is accepted without complaint. -/
theorem no_configuration_error_in_new :
    Cache.new id 40 1 30 = none ∧ (Cache.new id 1 0 1).isSome = true := by
  decide

/-- Claim C6 (counterexample): decomposition is claimed total for every
geometry with `S + B ≤ 64`, including the degenerate `S + B = 64` where the
tag should always be 0.  At `S = 32, B = 32` the very first field
computation `address >> (set_bits + block_bits)` shifts a `u64` by 64 and
panics, so `place_block` fails (`none`) instead of returning tag 0. -/
theorem place_block_panics_at_degenerate_geometry :
    place_block 5 32 32 = none := by
  decide

/-- Claim C7: the store-into-empty step is claimed to set the stored line's
timestamp to the current time.  With geometry `S = 1, E = 2, B = 1` and the
single access `0x0`, line 0 of set 0 is marked valid with tag 0, but its
`access_time` is still instant 0 (the one it received at construction),
although four clock calls have already happened — `attempt_cache_store`
never touches `access_time`. -/
theorem store_leaves_timestamp_stale :
    (((Cache.new id 1 2 1).bind fun c => c.operate_cache id [⟨.Load, 0x0, 1⟩]).map fun c =>
      ((c.sets.get? 0).map fun s => s.lines.map fun l => (l.valid, l.tag, l.access_time),
        c.clock)) =
      some (some [(true, 0, 0), (false, 0, 1)], 4) := by
  decide

lemma mk_lines_length (tau : Nat → Nat) (start n b : Nat) :
    (mk_lines tau start n b).length = n := by
  simp [mk_lines]

lemma pow_two_gt_255_iff (n : Nat) : 255 < 2 ^ n ↔ 8 ≤ n := by
  have : (255 : Nat) < 2 ^ n ↔ 2 ^ 8 ≤ 2 ^ n := by
    constructor <;> intro h
    · have h8 : (2 : Nat) ^ 8 = 256 := by norm_num
      omega
    · have h8 : (2 : Nat) ^ 8 = 256 := by norm_num
      omega
  rw [this, Nat.pow_le_pow_iff_right (by norm_num : 1 < 2)]

/-- Claim C10: `Cache::new` computes `2^S` and `2^B` in `u8`, so it returns
a cache — with `2^S` sets of `E` lines each — exactly when `S ≤ 7` and
`B ≤ 7`, and panics from `u8` overflow for any larger bit count. -/
theorem new_succeeds_iff_small_bits :
    ∀ S E B : Nat,
      ((Cache.new id S E B).isSome ↔ S ≤ 7 ∧ B ≤ 7) ∧
      ∀ c, Cache.new id S E B = some c →
        c.sets.length = 2 ^ S ∧ ∀ s ∈ c.sets, s.lines.length = E := by
  intro S E B
  unfold Cache.new
  split_ifs with h1 h2 h3 h4
  · rw [pow_two_gt_255_iff] at h1
    constructor
    · simp only [Option.isSome_none]
      constructor
      · intro h
        exact absurd h (by simp)
      · intro ⟨hS, _⟩
        omega
    · intro c hc
      exact absurd hc (by simp)
  · rw [pow_two_gt_255_iff] at h2
    constructor
    · simp only [Option.isSome_none]
      constructor
      · intro h
        exact absurd h (by simp)
      · intro ⟨_, hB⟩
        omega
    · intro c hc
      exact absurd hc (by simp)
  · rw [pow_two_gt_255_iff] at h1 h2
    omega
  · rw [pow_two_gt_255_iff] at h1 h2
    omega
  · rw [pow_two_gt_255_iff] at h1 h2
    constructor
    · simp only [Option.isSome_some, true_iff]
      omega
    · intro c hc
      obtain rfl := (Option.some.injEq _ _).mp hc
      constructor
      · simp
      · intro s hs
        simp only [List.mem_map] at hs
        obtain ⟨j, _, rfl⟩ := hs
        exact mk_lines_length ..

/-- Witness for C10 at `S = 3, E = 2, B = 4`: construction succeeds. -/
theorem new_succeeds_iff_small_bits_witness :
    (Cache.new id 3 2 4).isSome :=
  (new_succeeds_iff_small_bits 3 2 4).1.mpr ⟨by decide, by decide⟩

lemma operate_step_hit_miss {tau : Nat → Nat} {c : Cache} {t : MemoryAccess} {c' : Cache}
    (h : c.operate_step tau t = some c') :
    c'.stats.hit + c'.stats.miss = c.stats.hit + c.stats.miss + 1 := by
  unfold Cache.operate_step at h
  cases hd : c.decompose t.address with
  | none =>
    simp only [hd] at h
    exact Option.noConfusion h
  | some parts =>
    simp only [hd] at h
    unfold Cache.attempt_cache_hit at h
    cases hs : c.sets.get? parts.set with
    | none =>
      simp only [hs] at h
      exact Option.noConfusion h
    | some s =>
      simp only [hs] at h
      cases hl : s.lines with
      | nil =>
        simp only [hl] at h
        unfold Cache.attempt_cache_store at h
        simp only [hs, hl] at h
        unfold store_lines at h
        unfold Cache.evict_cache_block at h
        simp only [hs, hl] at h
        exact Option.noConfusion h
      | cons l rest =>
        simp only [hl] at h
        by_cases hv : l.valid = true ∧ l.tag = parts.tag
        · rw [if_pos hv] at h
          simp only [Option.some.injEq] at h
          subst h
          simp only
          omega
        · rw [if_neg hv] at h
          unfold Cache.attempt_cache_store at h
          simp only [hs] at h
          cases hsl : store_lines parts.tag s.lines with
          | some ls =>
            simp only [hsl] at h
            simp only [Option.some.injEq] at h
            subst h
            simp only
            omega
          | none =>
            simp only [hsl] at h
            unfold Cache.evict_cache_block at h
            simp only [hs, hl] at h
            simp only [Option.some.injEq] at h
            subst h
            simp only
            omega

lemma operate_cache_hit_miss {tau : Nat → Nat} :
    ∀ (ts : List MemoryAccess) (c c' : Cache), c.operate_cache tau ts = some c' →
      c'.stats.hit + c'.stats.miss = c.stats.hit + c.stats.miss + ts.length := by
  intro ts
  induction ts with
  | nil =>
    intro c c' h
    unfold Cache.operate_cache at h
    obtain rfl := (Option.some.injEq _ _).mp h
    simp
  | cons t ts ih =>
    intro c c' h
    unfold Cache.operate_cache at h
    cases hstep : c.operate_step tau t with
    | none => rw [hstep] at h; exact absurd h (by simp)
    | some c1 =>
      rw [hstep] at h
      have h1 := operate_step_hit_miss hstep
      have h2 := ih c1 c' h
      simp only [List.length_cons]
      omega

lemma new_stats_zero {tau : Nat → Nat} {S E B : Nat} {c : Cache}
    (h : Cache.new tau S E B = some c) : c.stats = ⟨0, 0, 0⟩ := by
  unfold Cache.new at h
  split_ifs at h
  obtain rfl := (Option.some.injEq _ _).mp h
  rfl

/-- Claim C2: starting from a freshly constructed cache, every completed run
satisfies `hits + misses = number of accesses processed` — each access
increments exactly one of the two counters. -/
theorem hits_add_misses_eq_accesses (S E B : Nat) (hE : 1 ≤ E) (c₀ c' : Cache)
    (tr : List MemoryAccess) (h₀ : Cache.new id S E B = some c₀)
    (h₁ : c₀.operate_cache id tr = some c') :
    c'.stats.hit + c'.stats.miss = tr.length := by
  have hz := new_stats_zero h₀
  have h := operate_cache_hit_miss tr c₀ c' h₁
  rw [hz] at h
  simpa using h

/-- Witness for C2: one access, one miss, `0 + 1 = 1`. -/
theorem hits_add_misses_eq_accesses_witness :
    demo_run_cache.stats.hit + demo_run_cache.stats.miss = 1 :=
  hits_add_misses_eq_accesses 1 1 1 (by decide) demo_new_cache demo_run_cache
    [⟨.Load, 0, 1⟩] (by decide) (by decide)

lemma pow_two_pos (n : Nat) : 0 < 2 ^ n := Nat.pos_pow_of_pos n (by norm_num)

lemma mul_pow_mod_pow (a w t : Nat) (h : t ≤ w) :
    a * 2 ^ t % 2 ^ w = a % 2 ^ (w - t) * 2 ^ t := by
  conv_lhs => rw [show w = w - t + t from by omega]
  rw [pow_add, Nat.mul_mod_mul_right]

lemma mul_pow_div_pow_add (x t b : Nat) : x * 2 ^ t / 2 ^ (t + b) = x / 2 ^ b := by
  rw [pow_add, ← Nat.div_div_eq_div_mul, Nat.mul_div_cancel _ (pow_two_pos t)]

/-- Claim C6 (amended): on the geometries where no shift amount reaches 64 —
that is, `1 ≤ S`, `1 ≤ B` and `S + B ≤ 63` — `place_block` is total, returns
the high `64 - S - B` bits as tag, the middle `S` bits as set index and the
low `B` bits as block offset, and reassembling
`tag * 2^(S+B) + set * 2^B + block` reproduces the address exactly.  (The
claim's original domain `S + B ≤ 64` fails: see the counterexample.) -/
theorem place_block_round_trip (S B a : Nat) (hS : 1 ≤ S) (hB : 1 ≤ B) (hSB : S + B ≤ 63)
    (ha : a < 2 ^ 64) :
    place_block a S B = some ⟨a / 2 ^ (S + B), a % 2 ^ (S + B) / 2 ^ B, a % 2 ^ B⟩ ∧
    a / 2 ^ (S + B) * 2 ^ (S + B) + a % 2 ^ (S + B) / 2 ^ B * 2 ^ B + a % 2 ^ B = a := by
  constructor
  · unfold place_block
    rw [if_neg (by omega), if_neg (by omega), if_neg (by omega), if_neg (by omega)]
    simp only [Option.some.injEq, AddressPartition.mk.injEq]
    refine ⟨trivial, ?_, ?_⟩
    · have h1 : a * 2 ^ (64 - (S + B)) % 2 ^ 64 = a % 2 ^ (S + B) * 2 ^ (64 - (S + B)) := by
        have h := mul_pow_mod_pow a 64 (64 - (S + B)) (by omega)
        rw [show 64 - (64 - (S + B)) = S + B from by omega] at h
        exact h
      rw [h1, mul_pow_div_pow_add]
    · have h2 : a * 2 ^ (64 - (S + B) + S) % 2 ^ 64 = a % 2 ^ B * 2 ^ (64 - (S + B) + S) := by
        have h := mul_pow_mod_pow a 64 (64 - (S + B) + S) (by omega)
        rw [show 64 - (64 - (S + B) + S) = B from by omega] at h
        exact h
      rw [h2, Nat.mul_div_cancel _ (pow_two_pos _)]
  · have h3 : a % 2 ^ (S + B) % 2 ^ B = a % 2 ^ B :=
      Nat.mod_mod_of_dvd a (pow_dvd_pow 2 (by omega))
    calc a / 2 ^ (S + B) * 2 ^ (S + B) + a % 2 ^ (S + B) / 2 ^ B * 2 ^ B + a % 2 ^ B
        = a / 2 ^ (S + B) * 2 ^ (S + B) +
          (a % 2 ^ (S + B) / 2 ^ B * 2 ^ B + a % 2 ^ (S + B) % 2 ^ B) := by
          rw [h3, Nat.add_assoc]
      _ = a / 2 ^ (S + B) * 2 ^ (S + B) + a % 2 ^ (S + B) := by rw [Nat.div_add_mod']
      _ = a := Nat.div_add_mod' a _

/-- Witness for C6 at `S = 1, B = 1`, address 6: decomposition gives tag 1,
set 1, block 0, and `1 * 4 + 1 * 2 + 0 = 6`. -/
theorem place_block_round_trip_witness :
    place_block 6 1 1 = some ⟨1, 1, 0⟩ ∧
    6 / 2 ^ (1 + 1) * 2 ^ (1 + 1) + 6 % 2 ^ (1 + 1) / 2 ^ 1 * 2 ^ 1 + 6 % 2 ^ 1 = 6 :=
  place_block_round_trip 1 1 6 (by decide) (by decide) (by decide) (by decide)

/-- Characterization of the eviction scan loop: either no line beats the
running best (result unchanged), or the result is the first position whose
timestamp attains the minimum and strictly undercuts the running best. -/
lemma lru_fold_spec (ls : List Line) : ∀ pos bt bid : Nat,
    (lru_fold ls pos bt bid = (bt, bid) ∧ ∀ l ∈ ls, bt ≤ l.access_time) ∨
    (∃ k lk, ls.get? k = some lk ∧
      lru_fold ls pos bt bid = (lk.access_time, pos + k) ∧
      lk.access_time < bt ∧
      (∀ l ∈ ls, lk.access_time ≤ l.access_time) ∧
      (∀ j lj, j < k → ls.get? j = some lj → lk.access_time < lj.access_time)) := by
  induction ls with
  | nil =>
    intro pos bt bid
    left
    exact ⟨rfl, by simp⟩
  | cons l ls ih =>
    intro pos bt bid
    by_cases hlt : l.access_time < bt
    · rw [show lru_fold (l :: ls) pos bt bid = lru_fold ls (pos + 1) l.access_time pos from by
        simp only [lru_fold]; rw [if_pos hlt]]
      rcases ih (pos + 1) l.access_time pos with ⟨heq, hall⟩ | ⟨k, lk, hget, heq, hlt2, hmin, hfirst⟩
      · right
        refine ⟨0, l, by simp, ?_, hlt, ?_, ?_⟩
        · rw [heq, Nat.add_zero]
        · intro l' hl'
          rcases List.mem_cons.mp hl' with rfl | hmem
          · exact Nat.le_refl _
          · exact hall l' hmem
        · intro j lj hj
          omega
      · right
        refine ⟨k + 1, lk, by simpa using hget, ?_, Nat.lt_trans hlt2 hlt, ?_, ?_⟩
        · rw [heq]
          congr 1
          omega
        · intro l' hl'
          rcases List.mem_cons.mp hl' with rfl | hmem
          · exact Nat.le_of_lt hlt2
          · exact hmin l' hmem
        · intro j lj hj hgj
          cases j with
          | zero =>
            simp only [List.get?] at hgj
            cases hgj
            exact hlt2
          | succ j' =>
            exact hfirst j' lj (by omega) (by simpa using hgj)
    · rw [show lru_fold (l :: ls) pos bt bid = lru_fold ls (pos + 1) bt bid from by
        simp only [lru_fold]; rw [if_neg hlt]]
      rcases ih (pos + 1) bt bid with ⟨heq, hall⟩ | ⟨k, lk, hget, heq, hlt2, hmin, hfirst⟩
      · left
        refine ⟨heq, ?_⟩
        intro l' hl'
        rcases List.mem_cons.mp hl' with rfl | hmem
        · exact Nat.le_of_not_lt hlt
        · exact hall l' hmem
      · right
        refine ⟨k + 1, lk, by simpa using hget, ?_, hlt2, ?_, ?_⟩
        · rw [heq]
          congr 1
          omega
        · intro l' hl'
          rcases List.mem_cons.mp hl' with rfl | hmem
          · exact Nat.le_of_lt (Nat.lt_of_lt_of_le hlt2 (Nat.le_of_not_lt hlt))
          · exact hmin l' hmem
        · intro j lj hj hgj
          cases j with
          | zero =>
            simp only [List.get?] at hgj
            cases hgj
            exact Nat.lt_of_lt_of_le hlt2 (Nat.le_of_not_lt hlt)
          | succ j' =>
            exact hfirst j' lj (by omega) (by simpa using hgj)

lemma modify_line_eq_set : ∀ (ls : List Line) (i : Nat) (li : Line) (tag time : Nat),
    ls.get? i = some li →
    modify_line ls i tag time =
      ls.set i { li with valid := true, tag := tag, access_time := time } := by
  intro ls
  induction ls with
  | nil => intro i li tag time h; simp at h
  | cons l ls ih =>
    intro i li tag time h
    cases i with
    | zero =>
      simp only [List.get?] at h
      cases h
      rfl
    | succ i' =>
      simp only [List.get?] at h
      simp only [modify_line, List.set]
      rw [ih i' li tag time h]

/-- Claim C8: on a set that exists and is non-empty, `evict_cache_block`
always succeeds and replaces exactly the line with the smallest timestamp
(first-encountered minimum on ties: every line strictly earlier in the set
has a strictly larger timestamp), marking it valid, overwriting its tag,
stamping it with the current clock value, and incrementing `eviction` by
one. -/
theorem evict_selects_first_lru_line (tau : Nat → Nat) (c : Cache) (p : AddressPartition)
    (s : CacheSet) (hs : c.sets.get? p.set = some s) (hne : s.lines ≠ []) :
    ∃ i li, s.lines.get? i = some li ∧
      (∀ l ∈ s.lines, li.access_time ≤ l.access_time) ∧
      (∀ j lj, j < i → s.lines.get? j = some lj → li.access_time < lj.access_time) ∧
      c.evict_cache_block tau p = some { c with
        sets := c.sets.set p.set
          ⟨s.lines.set i { li with valid := true, tag := p.tag, access_time := tau c.clock }⟩
        stats := { c.stats with eviction := c.stats.eviction + 1 }
        clock := c.clock + 1 } := by
  cases hl : s.lines with
  | nil => exact absurd hl hne
  | cons l0 rest =>
    have hev : c.evict_cache_block tau p = some { c with
        sets := c.sets.set p.set
          ⟨modify_line (l0 :: rest) (lru_fold rest 1 l0.access_time 0).2 p.tag (tau c.clock)⟩
        stats := { c.stats with eviction := c.stats.eviction + 1 }
        clock := c.clock + 1 } := by
      unfold Cache.evict_cache_block
      simp only [hs, hl]
    rcases lru_fold_spec rest 1 l0.access_time 0 with ⟨heq, hall⟩ |
      ⟨k, lk, hget, heq, hlt2, hmin, hfirst⟩
    · have hbest : (lru_fold rest 1 l0.access_time 0).2 = 0 := by rw [heq]
      refine ⟨0, l0, by simp, ?_, ?_, ?_⟩
      · intro l hlmem
        rcases List.mem_cons.mp hlmem with rfl | hmem
        · exact Nat.le_refl _
        · exact hall l hmem
      · intro j lj hj
        omega
      · rw [hev, hbest,
          modify_line_eq_set (l0 :: rest) 0 l0 p.tag (tau c.clock) (by simp)]
    · have hbest : (lru_fold rest 1 l0.access_time 0).2 = k + 1 := by rw [heq]; omega
      refine ⟨k + 1, lk, by simpa using hget, ?_, ?_, ?_⟩
      · intro l hlmem
        rcases List.mem_cons.mp hlmem with rfl | hmem
        · exact Nat.le_of_lt hlt2
        · exact hmin l hmem
      · intro j lj hj hgj
        cases j with
        | zero =>
          simp only [List.get?] at hgj
          cases hgj
          exact hlt2
        | succ j' =>
          exact hfirst j' lj (by omega) (by simpa using hgj)
      · rw [hev, hbest,
          modify_line_eq_set (l0 :: rest) (k + 1) lk p.tag (tau c.clock) (by simpa using hget)]

/-- Witness for C8 on `demo_evict_cache` with an access of tag 9 to set 0. -/
theorem evict_selects_first_lru_line_witness :
    ∃ i li, demo_evict_set.lines.get? i = some li ∧
      (∀ l ∈ demo_evict_set.lines, li.access_time ≤ l.access_time) ∧
      (∀ j lj, j < i → demo_evict_set.lines.get? j = some lj →
        li.access_time < lj.access_time) ∧
      demo_evict_cache.evict_cache_block id ⟨9, 0, 0⟩ = some { demo_evict_cache with
        sets := demo_evict_cache.sets.set 0
          ⟨demo_evict_set.lines.set i
            { li with valid := true, tag := 9, access_time := id demo_evict_cache.clock }⟩
        stats := { demo_evict_cache.stats with
          eviction := demo_evict_cache.stats.eviction + 1 }
        clock := demo_evict_cache.clock + 1 } :=
  evict_selects_first_lru_line id demo_evict_cache ⟨9, 0, 0⟩ demo_evict_set
    (by decide) (by decide)

/-- Claim C9 (counterexample): replaying the same access sequence against
the same geometry is claimed to always yield identical statistics.  The
code reads `Instant::now()`, which is only non-strictly monotone.  Under
the clock valuation `tau_tie` (monotone, but with calls 1–4 returning the
same instant) the trace `0x0, 0x4, 0x0, 0x8, 0x0` on geometry
`S = 1, E = 2, B = 1` produces statistics `{1, 4, 2}`, while the same trace
under the strictly monotone identity clock produces `{2, 3, 1}`: the tie
makes the LRU scan evict a different line. -/
theorem replay_statistics_differ_with_tying_clock :
    ((Cache.new tau_tie 1 2 1).bind fun c =>
        c.operate_cache tau_tie
          [⟨.Load, 0x0, 1⟩, ⟨.Load, 0x4, 1⟩, ⟨.Load, 0x0, 1⟩, ⟨.Load, 0x8, 1⟩,
            ⟨.Load, 0x0, 1⟩]).map Cache.stats ≠
      ((Cache.new id 1 2 1).bind fun c =>
        c.operate_cache id
          [⟨.Load, 0x0, 1⟩, ⟨.Load, 0x4, 1⟩, ⟨.Load, 0x0, 1⟩, ⟨.Load, 0x8, 1⟩,
            ⟨.Load, 0x0, 1⟩]).map Cache.stats := by
  decide

lemma get?_map_eq {α β : Type} (f : α → β) : ∀ (l : List α) (i : Nat),
    (l.map f).get? i = (l.get? i).map f := by
  intro l
  induction l with
  | nil => intro i; cases i <;> rfl
  | cons x xs ih => intro i; cases i with
    | zero => rfl
    | succ i => simp only [List.map_cons, List.get?_cons_succ]; exact ih i

lemma map_set_comm {α β : Type} (f : α → β) : ∀ (l : List α) (i : Nat) (x : α),
    (l.set i x).map f = (l.map f).set i (f x) := by
  intro l
  induction l with
  | nil => intro i x; rfl
  | cons y ys ih => intro i x; cases i with
    | zero => rfl
    | succ i => simp only [List.set, List.map, List.map_cons]; rw [ih]

lemma mk_lines_map (tau : Nat → Nat) (start n b : Nat) :
    mk_lines tau start n b = (mk_lines id start n b).map (map_time_line tau) := by
  simp only [mk_lines, List.map_map]
  rfl

lemma new_map (tau : Nat → Nat) (S E B : Nat) :
    Cache.new tau S E B = (Cache.new id S E B).map (map_time tau) := by
  unfold Cache.new
  split_ifs <;> try rfl
  simp only [Option.map]
  congr 1
  simp only [map_time, List.map_map]
  congr 1
  refine List.map_congr_left ?_
  intro s _
  simp only [Function.comp, map_time_set, mk_lines_map tau]

lemma get?_map_time (tau : Nat → Nat) (c : Cache) (i : Nat) :
    (map_time tau c).sets.get? i = (c.sets.get? i).map (map_time_set tau) := by
  simp only [map_time]
  exact get?_map_eq _ _ _

lemma clock_map_time (tau : Nat → Nat) (c : Cache) : (map_time tau c).clock = c.clock := rfl

lemma stats_map_time (tau : Nat → Nat) (c : Cache) : (map_time tau c).stats = c.stats := rfl

lemma hit_map (tau : Nat → Nat) (c : Cache) (parts : AddressPartition) :
    (map_time tau c).attempt_cache_hit tau parts =
      (c.attempt_cache_hit id parts).map (fun x => (map_time tau x.1, x.2)) := by
  unfold Cache.attempt_cache_hit
  rw [get?_map_time]
  cases hs : c.sets.get? parts.set with
  | none => rfl
  | some s =>
    simp only [Option.map, map_time_set]
    cases hl : s.lines with
    | nil => rfl
    | cons l rest =>
      simp only [List.map_cons]
      by_cases hv : l.valid = true ∧ l.tag = parts.tag
      · rw [if_pos (by simpa [map_time_line] using hv), if_pos hv]
        simp only [Option.some.injEq, Prod.mk.injEq]
        refine ⟨?_, trivial⟩
        simp only [map_time, map_set_comm]
        rfl
      · rw [if_neg (by simpa [map_time_line] using hv), if_neg hv]
        rfl

lemma store_lines_map (tau : Nat → Nat) (t : Nat) : ∀ ls : List Line,
    store_lines t (ls.map (map_time_line tau)) =
      (store_lines t ls).map (List.map (map_time_line tau)) := by
  intro ls
  induction ls with
  | nil => rfl
  | cons l rest ih =>
    simp only [List.map_cons, store_lines]
    by_cases hv : l.valid = false
    · rw [if_pos (by simpa [map_time_line] using hv), if_pos hv]
      rfl
    · rw [if_neg (by simpa [map_time_line] using hv), if_neg hv]
      rw [ih]
      cases store_lines t rest <;> rfl

lemma store_map (tau : Nat → Nat) (c : Cache) (parts : AddressPartition) :
    (map_time tau c).attempt_cache_store parts =
      (c.attempt_cache_store parts).map (fun x => (map_time tau x.1, x.2)) := by
  unfold Cache.attempt_cache_store
  rw [get?_map_time]
  cases hs : c.sets.get? parts.set with
  | none => rfl
  | some s =>
    simp only [Option.map, map_time_set]
    rw [store_lines_map]
    cases hsl : store_lines parts.tag s.lines with
    | none => rfl
    | some ls =>
      simp only [Option.map, Option.some.injEq, Prod.mk.injEq]
      refine ⟨?_, trivial⟩
      simp only [map_time, map_set_comm]
      rfl

lemma lru_fold_map {tau : Nat → Nat} (htau : StrictMono tau) : ∀ (ls : List Line) (pos bt bid : Nat),
    lru_fold (ls.map (map_time_line tau)) pos (tau bt) bid =
      (tau (lru_fold ls pos bt bid).1, (lru_fold ls pos bt bid).2) := by
  intro ls
  induction ls with
  | nil => intro pos bt bid; rfl
  | cons l rest ih =>
    intro pos bt bid
    simp only [List.map_cons, lru_fold]
    by_cases hlt : l.access_time < bt
    · rw [if_pos (by simpa [map_time_line] using htau.lt_iff_lt.mpr hlt), if_pos hlt]
      exact ih (pos + 1) l.access_time pos
    · rw [if_neg (by simpa [map_time_line] using fun hc => hlt (htau.lt_iff_lt.mp hc)),
        if_neg hlt]
      exact ih (pos + 1) bt bid

lemma modify_line_map (tau : Nat → Nat) : ∀ (ls : List Line) (i t v : Nat),
    modify_line (ls.map (map_time_line tau)) i t (tau v) =
      (modify_line ls i t v).map (map_time_line tau) := by
  intro ls
  induction ls with
  | nil => intro i t v; rfl
  | cons l rest ih =>
    intro i t v
    cases i with
    | zero => rfl
    | succ i =>
      simp only [List.map_cons, modify_line]
      rw [ih]

lemma evict_map {tau : Nat → Nat} (htau : StrictMono tau) (c : Cache) (parts : AddressPartition) :
    (map_time tau c).evict_cache_block tau parts =
      (c.evict_cache_block id parts).map (map_time tau) := by
  unfold Cache.evict_cache_block
  rw [get?_map_time]
  cases hs : c.sets.get? parts.set with
  | none => rfl
  | some s =>
    simp only [Option.map, map_time_set]
    cases hl : s.lines with
    | nil => rfl
    | cons l0 rest =>
      simp only [List.map_cons, Option.some.injEq]
      have hfold := lru_fold_map htau rest 1 l0.access_time 0
      rw [show (map_time_line tau l0).access_time = tau l0.access_time from rfl, hfold]
      simp only [map_time, map_set_comm]
      congr 2
      simp only [map_time_set, id_eq]
      congr 1
      rw [← modify_line_map tau (l0 :: rest)]
      rfl

lemma decompose_map_time (tau : Nat → Nat) (c : Cache) (a : Nat) :
    (map_time tau c).decompose a = c.decompose a := rfl

lemma step_map {tau : Nat → Nat} (htau : StrictMono tau) (c : Cache) (t : MemoryAccess) :
    (map_time tau c).operate_step tau t = (c.operate_step id t).map (map_time tau) := by
  unfold Cache.operate_step
  rw [decompose_map_time]
  cases hd : c.decompose t.address with
  | none => rfl
  | some parts =>
    simp only
    rw [hit_map]
    cases hh : c.attempt_cache_hit id parts with
    | none => rfl
    | some cb =>
      obtain ⟨c1, b⟩ := cb
      cases b with
      | true => rfl
      | false =>
        simp only [Option.map]
        rw [store_map]
        cases hst : c1.attempt_cache_store parts with
        | none => rfl
        | some cb2 =>
          obtain ⟨c2, b2⟩ := cb2
          cases b2 with
          | true => rfl
          | false =>
            simp only [Option.map]
            exact evict_map htau c2 parts

lemma operate_map {tau : Nat → Nat} (htau : StrictMono tau) :
    ∀ (tr : List MemoryAccess) (c : Cache),
      (map_time tau c).operate_cache tau tr = (c.operate_cache id tr).map (map_time tau) := by
  intro tr
  induction tr with
  | nil => intro c; rfl
  | cons t ts ih =>
    intro c
    unfold Cache.operate_cache
    rw [step_map htau]
    cases hstep : c.operate_step id t with
    | none => rfl
    | some c1 =>
      simp only [Option.map]
      exact ih c1

/-- Claim C9 (amended): replay is deterministic whenever the timestamp
source is strictly monotone — for any two strictly monotone clock
valuations, running the same trace against the same geometry yields
identical final statistics.  (With the code's actual `Instant::now()`
source, which may return equal instants, determinism fails: see the
counterexample.)  Proved by simulating either run against the canonical
logical-clock run through `map_time`. -/
theorem replay_deterministic_with_strict_clocks (tau1 tau2 : Nat → Nat)
    (h1 : StrictMono tau1) (h2 : StrictMono tau2) (S E B : Nat) (tr : List MemoryAccess) :
    ((Cache.new tau1 S E B).bind fun c => c.operate_cache tau1 tr).map Cache.stats =
      ((Cache.new tau2 S E B).bind fun c => c.operate_cache tau2 tr).map Cache.stats := by
  have key : ∀ tau : Nat → Nat, StrictMono tau →
      ((Cache.new tau S E B).bind fun c => c.operate_cache tau tr).map Cache.stats =
        ((Cache.new id S E B).bind fun c => c.operate_cache id tr).map Cache.stats := by
    intro tau htau
    rw [new_map tau]
    cases hn : Cache.new id S E B with
    | none => rfl
    | some c0 =>
      simp only [Option.map, Option.bind]
      rw [operate_map htau]
      cases c0.operate_cache id tr <;> rfl
  rw [key tau1 h1, key tau2 h2]

/-- Witness for C9: the strictly monotone clocks `n + 5` and `id` agree on a
concrete two-access run. -/
theorem replay_deterministic_with_strict_clocks_witness :
    ((Cache.new (fun n => n + 5) 1 2 1).bind fun c =>
        c.operate_cache (fun n => n + 5) [⟨.Load, 0x0, 1⟩, ⟨.Load, 0x4, 1⟩]).map Cache.stats =
      ((Cache.new id 1 2 1).bind fun c =>
        c.operate_cache id [⟨.Load, 0x0, 1⟩, ⟨.Load, 0x4, 1⟩]).map Cache.stats :=
  replay_deterministic_with_strict_clocks (fun n => n + 5) id
    (fun a b h => by simpa using h) strictMono_id 1 2 1 [⟨.Load, 0x0, 1⟩, ⟨.Load, 0x4, 1⟩]

end Csim
